import Mathlib

/-!
# Verification of the webassets cache module (`src/webassets/cache.py`)

This file gives a shallow embedding of the cache module and proves the
spec's claims about it.  The embedding covers:

* composite cache keys and the key normalizer `make_hashable` (which
  delegates to `freezedicts`),
* the content hasher `make_md5` with its inner `walk` generator,
* the value codec `maybe_pickle` / `safe_unpickle`,
* the bounded `MemoryCache` (mapping plus recency list, eviction on `set`),
* the `FilesystemCache` over an explicit file-system state,
* the `get_cache` store factory.

Python machine integers are modelled as `Int`/`Nat`; byte strings as
`List Nat`; raised exceptions as `Except`/`Option` results.
-/

set_option maxHeartbeats 1000000

/-- A composite cache key, as accepted by `make_md5` / `make_hashable`:
tuples and lists (`kseq`), dicts (`kmap`, an insertion-ordered list of
key–value entries), `BaseHunk` objects carrying raw byte content
(`khunk`), `Filter` objects carrying a stable identity hash (`kfilter`),
integers (`kint`) and strings (`kstr`, as raw bytes).  `kfloat` stands
for a value of any *unrecognized* kind (for example a floating-point
number), identified by an opaque payload. -/
inductive Key where
  | kint (n : Int)
  | kstr (s : List Nat)
  | khunk (d : List Nat)
  | kfilter (h : Int)
  | kseq (xs : List Key)
  | kmap (es : List (Key × Key))
  | kfloat (w : Nat)

/-- Tag used to order values of different kinds, modelling the fixed
(arbitrary but deterministic) cross-type ordering Python 2's `sorted`
applies to dict keys of mixed types. -/
def Key.tag : Key → Nat
  | .kint _ => 0
  | .kstr _ => 1
  | .khunk _ => 2
  | .kfilter _ => 3
  | .kseq _ => 4
  | .kmap _ => 5
  | .kfloat _ => 6

/-- Lexicographic comparison of byte lists. -/
def natListCmp : List Nat → List Nat → Ordering
  | [], [] => .eq
  | [], _ :: _ => .lt
  | _ :: _, [] => .gt
  | a :: as, b :: bs =>
    match compare a b with
    | .eq => natListCmp as bs
    | o => o

mutual

/-- A fixed total comparison on keys, modelling the deterministic order
in which Python 2's `sorted` arranges dict keys inside `make_md5.walk`
(and by which the modelled normalizer sorts dict entries). -/
def keyCmp : Key → Key → Ordering
  | .kint a, .kint b => compare a b
  | .kstr a, .kstr b => natListCmp a b
  | .khunk a, .khunk b => natListCmp a b
  | .kfilter a, .kfilter b => compare a b
  | .kseq a, .kseq b => keyListCmp a b
  | .kmap a, .kmap b => entListCmp a b
  | .kfloat a, .kfloat b => compare a b
  | a, b => compare a.tag b.tag

/-- Lexicographic comparison of key lists. -/
def keyListCmp : List Key → List Key → Ordering
  | [], [] => .eq
  | [], _ :: _ => .lt
  | _ :: _, [] => .gt
  | a :: as, b :: bs =>
    match keyCmp a b with
    | .eq => keyListCmp as bs
    | o => o

/-- Lexicographic comparison of entry lists (key first, then value). -/
def entListCmp : List (Key × Key) → List (Key × Key) → Ordering
  | [], [] => .eq
  | [], _ :: _ => .lt
  | _ :: _, [] => .gt
  | (ka, va) :: as, (kb, vb) :: bs =>
    match keyCmp ka kb with
    | .eq =>
      match keyCmp va vb with
      | .eq => entListCmp as bs
      | o => o
    | o => o

end

mutual

/-- Boolean equality test on keys (structural). -/
def keyBeq : Key → Key → Bool
  | .kint a, .kint b => a == b
  | .kstr a, .kstr b => a == b
  | .khunk a, .khunk b => a == b
  | .kfilter a, .kfilter b => a == b
  | .kseq a, .kseq b => keyListBeq a b
  | .kmap a, .kmap b => keyEntsBeq a b
  | .kfloat a, .kfloat b => a == b
  | _, _ => false

/-- Boolean equality test on key lists. -/
def keyListBeq : List Key → List Key → Bool
  | [], [] => true
  | a :: as, b :: bs => keyBeq a b && keyListBeq as bs
  | _, _ => false

/-- Boolean equality test on entry lists. -/
def keyEntsBeq : List (Key × Key) → List (Key × Key) → Bool
  | [], [] => true
  | (ka, va) :: as, (kb, vb) :: bs =>
    keyBeq ka kb && keyBeq va vb && keyEntsBeq as bs
  | _, _ => false

end

/-- `keyListBeq` decides equality, given that `keyBeq` does on members. -/
theorem keyListBeq_iff_of (as bs : List Key)
    (ih : ∀ x ∈ as, ∀ y, keyBeq x y = true ↔ x = y) :
    keyListBeq as bs = true ↔ as = bs := by
  induction as generalizing bs with
  | nil => cases bs <;> simp [keyListBeq]
  | cons a as ihl =>
    cases bs with
    | nil => simp [keyListBeq]
    | cons b bs =>
      have ha := ih a (by simp)
      have hrest := ihl bs (fun x hx y => ih x (by simp [hx]) y)
      simp [keyListBeq, Bool.and_eq_true, ha, hrest]

/-- `keyEntsBeq` decides equality, given that `keyBeq` does on components. -/
theorem keyEntsBeq_iff_of (as bs : List (Key × Key))
    (ih : ∀ p ∈ as, ∀ y, (keyBeq p.1 y = true ↔ p.1 = y) ∧
      (keyBeq p.2 y = true ↔ p.2 = y)) :
    keyEntsBeq as bs = true ↔ as = bs := by
  induction as generalizing bs with
  | nil => cases bs <;> simp [keyEntsBeq]
  | cons a as ihl =>
    cases bs with
    | nil =>
      obtain ⟨ka, va⟩ := a
      simp [keyEntsBeq]
    | cons b bs =>
      obtain ⟨ka, va⟩ := a
      obtain ⟨kb, vb⟩ := b
      have hk := (ih (ka, va) (by simp) kb).1
      have hv := (ih (ka, va) (by simp) vb).2
      have hrest := ihl bs (fun p hp y => ih p (by simp [hp]) y)
      simp [keyEntsBeq, Bool.and_eq_true, hk, hv, hrest, Prod.ext_iff]

/-- `keyBeq` decides equality of keys. -/
theorem keyBeq_iff : ∀ (a b : Key), keyBeq a b = true ↔ a = b
  | a, b => by
    cases a <;> cases b <;>
      simp [keyBeq, Key.kint.injEq, Key.kstr.injEq, Key.khunk.injEq,
        Key.kfilter.injEq, Key.kseq.injEq, Key.kmap.injEq, Key.kfloat.injEq]
    case kseq.kseq as bs =>
      exact keyListBeq_iff_of as bs (fun x hx y =>
        have : sizeOf x < 1 + sizeOf as := by
          have := List.sizeOf_lt_of_mem hx
          omega
        keyBeq_iff x y)
    case kmap.kmap as bs =>
      exact keyEntsBeq_iff_of as bs (fun p hp y =>
        have hps : sizeOf p < sizeOf as := List.sizeOf_lt_of_mem hp
        have hsz : sizeOf p = 1 + sizeOf p.1 + sizeOf p.2 := by
          obtain ⟨x, z⟩ := p
          simp
        have h1 : sizeOf p.1 < 1 + sizeOf as := by omega
        have h2 : sizeOf p.2 < 1 + sizeOf as := by omega
        ⟨keyBeq_iff p.1 y, keyBeq_iff p.2 y⟩)
termination_by a _ => sizeOf a

instance : DecidableEq Key := fun a b => decidable_of_iff _ (keyBeq_iff a b)

/-- Stable insertion into a sorted list: `a` goes before the first
element `b` with `le a b`. -/
def insertLe (le : α → α → Bool) (a : α) : List α → List α
  | [] => [a]
  | b :: bs => if le a b then a :: b :: bs else b :: insertLe le a bs

/-- Stable insertion sort, modelling Python's `sorted`. -/
def sortBy (le : α → α → Bool) : List α → List α
  | [] => []
  | a :: as => insertLe le a (sortBy le as)

theorem insertLe_perm (le : α → α → Bool) (a : α) (l : List α) :
    (insertLe le a l).Perm (a :: l) := by
  induction l with
  | nil => simp [insertLe]
  | cons b bs ih =>
    simp only [insertLe]
    by_cases h : le a b = true
    · simp [h]
    · simp only [h, if_false]
      exact ((ih.cons b).trans (List.Perm.swap a b bs))

theorem sortBy_perm (le : α → α → Bool) (l : List α) : (sortBy le l).Perm l := by
  induction l with
  | nil => simp [sortBy]
  | cons a as ih =>
    exact (insertLe_perm le a (sortBy le as)).trans (ih.cons a)

theorem mem_sortBy {le : α → α → Bool} {l : List α} {x : α} :
    x ∈ sortBy le l ↔ x ∈ l :=
  (sortBy_perm le l).mem_iff

/-- Mapping commutes with insertion when the map preserves the order key. -/
theorem insertLe_map_comm (f : α → β) (leA : α → α → Bool) (leB : β → β → Bool)
    (h : ∀ a b, leB (f a) (f b) = leA a b) (a : α) (l : List α) :
    (insertLe leA a l).map f = insertLe leB (f a) (l.map f) := by
  induction l with
  | nil => simp [insertLe]
  | cons b bs ih =>
    simp only [insertLe, List.map_cons, h]
    by_cases hab : leA a b = true
    · simp [hab]
    · simp [hab, ih]

/-- Mapping commutes with sorting when the map preserves the order key. -/
theorem sortBy_map_comm (f : α → β) (leA : α → α → Bool) (leB : β → β → Bool)
    (h : ∀ a b, leB (f a) (f b) = leA a b) (l : List α) :
    (sortBy leA l).map f = sortBy leB (l.map f) := by
  induction l with
  | nil => simp [sortBy]
  | cons a as ih =>
    simp only [sortBy, List.map_cons]
    rw [insertLe_map_comm f leA leB h, ih]

/-- `le` on keys under the fixed total order. -/
def keyLe (a b : Key) : Bool :=
  match keyCmp a b with
  | .gt => false
  | _ => true

/-- The byte sequence of a string (each char as its code point),
modelling what `md5.update` consumes for `str(...)` values. -/
def strBytes (s : String) : List Nat :=
  s.data.map Char.toNat

/-- The exceptions the module can raise: `make_md5` raises for key
elements of unrecognized kinds (a `ValueError` in the source; the spec
calls it `UnsupportedKeyType`). -/
inductive PyExc where
  | unsupportedKeyType
deriving DecidableEq

/-- Order on walked dict entries `(original key, key stream, value
stream)`: by the original key. -/
def wEntLe (a b : Key × List Nat × List Nat) : Bool := keyLe a.1 b.1

mutual

/-- `make_md5.walk`: depth-first walk over a composite key, yielding the
byte stream fed to the digest: sequence elements in order; dict entries
in key-sorted order (key stream before value stream); hunk content raw;
`str(hash(filter))` for filters; `str(obj)` for ints and strings.  Any
element of another kind raises (`Except.error`), aborting the digest.

The source sorts dict entries first and then walks them; here each
entry is walked in place and the per-entry streams are then emitted in
order of the original keys.  The resulting byte stream is the same, and
so is the raised exception (there is a single error kind), but the
definition stays structurally recursive. -/
def walk : Key → Except PyExc (List Nat)
  | .kint n => .ok (strBytes (toString n))
  | .kstr s => .ok s
  | .khunk d => .ok d
  | .kfilter h => .ok (strBytes (toString h))
  | .kseq xs => walkList xs
  | .kmap es =>
    Except.map
      (fun ws => ((sortBy wEntLe ws).map (fun t => t.2.1 ++ t.2.2)).flatten)
      (walkEntries es)
  | .kfloat _ => .error .unsupportedKeyType

/-- Walk the elements of a sequence in order; the first unsupported
element aborts. -/
def walkList : List Key → Except PyExc (List Nat)
  | [] => .ok []
  | x :: xs =>
    match walk x with
    | .error e => .error e
    | .ok a =>
      match walkList xs with
      | .error e => .error e
      | .ok b => .ok (a ++ b)

/-- Walk dict entries, keeping the original key next to the walked
key and value streams. -/
def walkEntries : List (Key × Key) → Except PyExc (List (Key × List Nat × List Nat))
  | [] => .ok []
  | (k, v) :: es =>
    match walk k with
    | .error e => .error e
    | .ok a =>
      match walk v with
      | .error e => .error e
      | .ok b =>
        match walkEntries es with
        | .error e => .error e
        | .ok rest => .ok ((k, a, b) :: rest)

end

/-- Modelled from the spec: `md5_constructor` (from `webassets.utils`)
is not under `src/`; spec §4.2 only requires a deterministic,
fixed-length digest string of the byte stream the walk yields.  We model
it as a 128-bit accumulator over the concatenated bytes, rendered as a
fixed-length hex string. -/
def md5Model (bs : List Nat) : String :=
  let h := bs.foldl (fun a b => (a * 65599 + b + 1) % (2 ^ 128)) 7
  String.mk (Nat.toDigits 16 (2 ^ 128 + h))

/-- `make_md5`: digest of the byte stream produced by walking `data`;
raises (`Except.error .unsupportedKeyType`) if the walk hits a key
element of an unrecognized kind. -/
def make_md5 (data : Key) : Except PyExc String :=
  (walk data).map md5Model

/-- Order on normalization work items `(original entry, normalized
entry)`: by the original entry's key. -/
def fEntLe (a b : (Key × Key) × (Key × Key)) : Bool := keyLe a.1.1 b.1.1

mutual

/-- Modelled from the spec: `make_hashable` delegates to `freezedicts`
(from `webassets.filter`), which is not under `src/`.  Spec §4.1/§3:
mappings are converted to an order-independent representation ("e.g.,
sorted key-value pairs"); sequences retain order; scalars and opaque
objects pass through unchanged.  We model the canonical form of a dict
as its entry list sorted by the fixed order on the original keys,
entries normalized recursively. -/
def freezedicts : Key → Key
  | .kseq xs => .kseq (freezeList xs)
  | .kmap es => .kmap ((sortBy fEntLe (freezeEntries es)).map (fun t => t.2))
  | k => k

/-- Normalize the elements of a sequence, keeping order. -/
def freezeList : List Key → List Key
  | [] => []
  | x :: xs => freezedicts x :: freezeList xs

/-- Normalize dict entries, keeping each original entry next to its
normalized form (the original key is the sort key). -/
def freezeEntries : List (Key × Key) → List ((Key × Key) × (Key × Key))
  | [] => []
  | (k, v) :: es => ((k, v), (freezedicts k, freezedicts v)) :: freezeEntries es

end

/-- `make_hashable`: ensures a composite key can be used as a dict key;
delegates to `freezedicts`. -/
def make_hashable (data : Key) : Key :=
  freezedicts data

mutual

/-- Whether a key contains an element of an unrecognized kind (one that
is not a sequence, mapping, hunk, filter, integer or string). -/
def containsUnsupported : Key → Bool
  | .kint _ => false
  | .kstr _ => false
  | .khunk _ => false
  | .kfilter _ => false
  | .kseq xs => listUnsupported xs
  | .kmap es => entsUnsupported es
  | .kfloat _ => true

/-- Some element of the list contains an unrecognized kind. -/
def listUnsupported : List Key → Bool
  | [] => false
  | x :: xs => containsUnsupported x || listUnsupported xs

/-- Some entry of the list contains an unrecognized kind. -/
def entsUnsupported : List (Key × Key) → Bool
  | [] => false
  | (k, v) :: es =>
    containsUnsupported k || containsUnsupported v || entsUnsupported es

end

example : make_hashable (.kmap [(.kstr [98], .kint 2), (.kstr [97], .kint 1)])
    = make_hashable (.kmap [(.kstr [97], .kint 1), (.kstr [98], .kint 2)]) := by
  decide

example : make_md5 (.kseq [.kstr [104], .kfloat 0]) = .error .unsupportedKeyType := by
  rfl

/-! ## The digest stream as a total function, and its invariance under
normalization.  `stream` mirrors `walk` on supported keys; `streamC`
reads a normalized key back in stored (already sorted) order.  These are
proof auxiliaries, not translations of source functions. -/

mutual

/-- The digest byte stream of a key, ignoring unsupported elements
(total companion of `walk`; they agree on supported keys). -/
def stream : Key → List Nat
  | .kint n => strBytes (toString n)
  | .kstr s => s
  | .khunk d => d
  | .kfilter h => strBytes (toString h)
  | .kseq xs => streamList xs
  | .kmap es => ((sortBy wEntLe (streamEntries es)).map (fun t => t.2.1 ++ t.2.2)).flatten
  | .kfloat _ => []

/-- Streams of sequence elements, concatenated in order. -/
def streamList : List Key → List Nat
  | [] => []
  | x :: xs => stream x ++ streamList xs

/-- Streams of dict entries, keeping the original key for sorting. -/
def streamEntries : List (Key × Key) → List (Key × List Nat × List Nat)
  | [] => []
  | (k, v) :: es => (k, stream k, stream v) :: streamEntries es

end

mutual

/-- The digest byte stream of a normalized key, reading dict entries in
stored order (they are already sorted after `freezedicts`). -/
def streamC : Key → List Nat
  | .kint n => strBytes (toString n)
  | .kstr s => s
  | .khunk d => d
  | .kfilter h => strBytes (toString h)
  | .kseq xs => streamListC xs
  | .kmap es => streamEntsC es
  | .kfloat _ => []

/-- Canonical streams of sequence elements, in order. -/
def streamListC : List Key → List Nat
  | [] => []
  | x :: xs => streamC x ++ streamListC xs

/-- Canonical streams of dict entries, in stored order. -/
def streamEntsC : List (Key × Key) → List Nat
  | [] => []
  | (k, v) :: es => streamC k ++ streamC v ++ streamEntsC es

end

/-- Order on original dict entries: by the key. -/
def eLe (a b : Key × Key) : Bool := keyLe a.1 b.1

theorem streamEntries_eq (es : List (Key × Key)) :
    streamEntries es = es.map (fun e => (e.1, stream e.1, stream e.2)) := by
  induction es with
  | nil => rfl
  | cons e es ih =>
    obtain ⟨k, v⟩ := e
    simp [streamEntries, ih]

theorem freezeEntries_eq (es : List (Key × Key)) :
    freezeEntries es = es.map (fun e => (e, (freezedicts e.1, freezedicts e.2))) := by
  induction es with
  | nil => rfl
  | cons e es ih =>
    obtain ⟨k, v⟩ := e
    simp [freezeEntries, ih]

theorem streamListC_freezeList_of (xs : List Key)
    (ih : ∀ x ∈ xs, stream x = streamC (freezedicts x)) :
    streamListC (freezeList xs) = streamList xs := by
  induction xs with
  | nil => rfl
  | cons x xs ihl =>
    simp only [freezeList, streamListC, streamList]
    rw [ih x (by simp), ihl (fun y hy => ih y (by simp [hy]))]

theorem streamEntsC_map_freeze_of (l : List (Key × Key))
    (ih : ∀ e ∈ l, stream e.1 = streamC (freezedicts e.1) ∧
      stream e.2 = streamC (freezedicts e.2)) :
    streamEntsC (l.map (fun e => (freezedicts e.1, freezedicts e.2)))
      = (l.map (fun e => stream e.1 ++ stream e.2)).flatten := by
  induction l with
  | nil => rfl
  | cons e l ihl =>
    simp only [List.map_cons, streamEntsC, List.flatten_cons]
    rw [← (ih e (by simp)).1, ← (ih e (by simp)).2,
      ihl (fun y hy => ih y (by simp [hy])), List.append_assoc]

/-- The digest stream depends only on the normalized form of the key:
walking a key yields the same bytes as reading its canonical form. -/
theorem stream_freeze : ∀ (k : Key), stream k = streamC (freezedicts k)
  | .kint _ => rfl
  | .kstr _ => rfl
  | .khunk _ => rfl
  | .kfilter _ => rfl
  | .kfloat _ => rfl
  | .kseq xs => by
    have ih : ∀ x ∈ xs, stream x = streamC (freezedicts x) := fun x hx =>
      have : sizeOf x < 1 + sizeOf xs := by
        have := List.sizeOf_lt_of_mem hx
        omega
      stream_freeze x
    show streamList xs = streamC (Key.kseq (freezeList xs))
    simp only [streamC]
    exact (streamListC_freezeList_of xs ih).symm
  | .kmap es => by
    have ih : ∀ e ∈ sortBy eLe es, stream e.1 = streamC (freezedicts e.1) ∧
        stream e.2 = streamC (freezedicts e.2) := fun e he =>
      have he' : e ∈ es := mem_sortBy.mp he
      have hps : sizeOf e < sizeOf es := List.sizeOf_lt_of_mem he'
      have hsz : sizeOf e = 1 + sizeOf e.1 + sizeOf e.2 := by
        obtain ⟨x, z⟩ := e
        simp
      have h1 : sizeOf e.1 < 1 + sizeOf es := by omega
      have h2 : sizeOf e.2 < 1 + sizeOf es := by omega
      ⟨stream_freeze e.1, stream_freeze e.2⟩
    show stream (Key.kmap es) = streamC (freezedicts (Key.kmap es))
    have hw : sortBy wEntLe (streamEntries es)
        = (sortBy eLe es).map (fun e => (e.1, stream e.1, stream e.2)) := by
      rw [streamEntries_eq]
      exact (sortBy_map_comm (fun e : Key × Key => (e.1, stream e.1, stream e.2))
        eLe wEntLe (fun a b => rfl) es).symm
    have hf : sortBy fEntLe (freezeEntries es)
        = (sortBy eLe es).map (fun e => (e, (freezedicts e.1, freezedicts e.2))) := by
      rw [freezeEntries_eq]
      exact (sortBy_map_comm
        (fun e : Key × Key => (e, (freezedicts e.1, freezedicts e.2)))
        eLe fEntLe (fun a b => rfl) es).symm
    simp only [stream, freezedicts, streamC, hw, hf, List.map_map]
    rw [show ((fun t : (Key × Key) × Key × Key => t.2) ∘
        fun e : Key × Key => (e, (freezedicts e.1, freezedicts e.2)))
        = fun e : Key × Key => (freezedicts e.1, freezedicts e.2) from rfl]
    rw [streamEntsC_map_freeze_of _ ih]
    rfl
termination_by k => sizeOf k

/-! ## `walk` agrees with `stream` on supported keys and raises on
unsupported ones. -/

theorem walkList_ok_of (xs : List Key)
    (ih : ∀ x ∈ xs, containsUnsupported x = false → walk x = .ok (stream x))
    (h : listUnsupported xs = false) : walkList xs = .ok (streamList xs) := by
  induction xs with
  | nil => rfl
  | cons x xs ihl =>
    simp only [listUnsupported, Bool.or_eq_false_iff] at h
    simp only [walkList, streamList]
    rw [ih x (by simp) h.1, ihl (fun y hy hs => ih y (by simp [hy]) hs) h.2]

theorem walkEntries_ok_of (es : List (Key × Key))
    (ih : ∀ e ∈ es, (containsUnsupported e.1 = false → walk e.1 = .ok (stream e.1)) ∧
      (containsUnsupported e.2 = false → walk e.2 = .ok (stream e.2)))
    (h : entsUnsupported es = false) : walkEntries es = .ok (streamEntries es) := by
  induction es with
  | nil => rfl
  | cons e es ihl =>
    obtain ⟨k, v⟩ := e
    simp only [entsUnsupported, Bool.or_eq_false_iff] at h
    simp only [walkEntries, streamEntries]
    rw [(ih (k, v) (by simp)).1 h.1.1, (ih (k, v) (by simp)).2 h.1.2,
      ihl (fun y hy => ih y (by simp [hy])) h.2]

/-- On a fully supported key, `walk` succeeds and yields `stream`. -/
theorem walk_ok : ∀ (k : Key), containsUnsupported k = false → walk k = .ok (stream k)
  | .kint _, _ => rfl
  | .kstr _, _ => rfl
  | .khunk _, _ => rfl
  | .kfilter _, _ => rfl
  | .kseq xs, h => by
    have ih : ∀ x ∈ xs, containsUnsupported x = false → walk x = .ok (stream x) :=
      fun x hx hs =>
        have : sizeOf x < 1 + sizeOf xs := by
          have := List.sizeOf_lt_of_mem hx
          omega
        walk_ok x hs
    show walkList xs = .ok (stream (Key.kseq xs))
    rw [walkList_ok_of xs ih h]
    rfl
  | .kmap es, h => by
    have ih : ∀ e ∈ es, (containsUnsupported e.1 = false → walk e.1 = .ok (stream e.1)) ∧
        (containsUnsupported e.2 = false → walk e.2 = .ok (stream e.2)) := fun e he =>
      have hps : sizeOf e < sizeOf es := List.sizeOf_lt_of_mem he
      have hsz : sizeOf e = 1 + sizeOf e.1 + sizeOf e.2 := by
        obtain ⟨x, z⟩ := e
        simp
      have h1 : sizeOf e.1 < 1 + sizeOf es := by omega
      have h2 : sizeOf e.2 < 1 + sizeOf es := by omega
      ⟨walk_ok e.1, walk_ok e.2⟩
    show walk (Key.kmap es) = .ok (stream (Key.kmap es))
    simp only [walk, stream]
    rw [walkEntries_ok_of es ih h]
    rfl
termination_by k => sizeOf k

theorem walkList_error_of (xs : List Key)
    (ih : ∀ x ∈ xs, containsUnsupported x = true → walk x = .error .unsupportedKeyType)
    (h : listUnsupported xs = true) : walkList xs = .error .unsupportedKeyType := by
  induction xs with
  | nil => simp [listUnsupported] at h
  | cons x xs ihl =>
    simp only [listUnsupported, Bool.or_eq_true] at h
    rcases h with h | h
    · simp [walkList, ih x (by simp) h]
    · rcases hx : containsUnsupported x with _ | _
      · rw [walkList, walk_ok x hx, ihl (fun y hy => ih y (by simp [hy])) h]
      · simp [walkList, ih x (by simp) hx]

theorem walkEntries_error_of (es : List (Key × Key))
    (ih : ∀ e ∈ es, (containsUnsupported e.1 = true →
        walk e.1 = .error .unsupportedKeyType) ∧
      (containsUnsupported e.2 = true → walk e.2 = .error .unsupportedKeyType))
    (h : entsUnsupported es = true) : walkEntries es = .error .unsupportedKeyType := by
  induction es with
  | nil => simp [entsUnsupported] at h
  | cons e es ihl =>
    obtain ⟨k, v⟩ := e
    rcases hk : containsUnsupported k with _ | _
    · rcases hv : containsUnsupported v with _ | _
      · simp only [entsUnsupported, hk, hv, Bool.false_or, Bool.or_eq_true] at h
        rw [walkEntries, walk_ok k hk, walk_ok v hv,
          ihl (fun y hy => ih y (by simp [hy])) h]
      · simp [walkEntries, walk_ok k hk, (ih (k, v) (by simp)).2 hv]
    · simp [walkEntries, (ih (k, v) (by simp)).1 hk]

/-- On a key containing an unsupported element, `walk` raises. -/
theorem walk_error : ∀ (k : Key), containsUnsupported k = true →
    walk k = .error .unsupportedKeyType
  | .kfloat _, _ => rfl
  | .kseq xs, h => by
    have ih : ∀ x ∈ xs, containsUnsupported x = true →
        walk x = .error .unsupportedKeyType := fun x hx hs =>
      have : sizeOf x < 1 + sizeOf xs := by
        have := List.sizeOf_lt_of_mem hx
        omega
      walk_error x hs
    show walkList xs = .error .unsupportedKeyType
    exact walkList_error_of xs ih h
  | .kmap es, h => by
    have ih : ∀ e ∈ es, (containsUnsupported e.1 = true →
        walk e.1 = .error .unsupportedKeyType) ∧
        (containsUnsupported e.2 = true → walk e.2 = .error .unsupportedKeyType) :=
      fun e he =>
        have hps : sizeOf e < sizeOf es := List.sizeOf_lt_of_mem he
        have hsz : sizeOf e = 1 + sizeOf e.1 + sizeOf e.2 := by
          obtain ⟨x, z⟩ := e
          simp
        have h1 : sizeOf e.1 < 1 + sizeOf es := by omega
        have h2 : sizeOf e.2 < 1 + sizeOf es := by omega
        ⟨walk_error e.1, walk_error e.2⟩
    show walk (Key.kmap es) = .error .unsupportedKeyType
    simp [walk, walkEntries_error_of es ih h, Except.map]
termination_by k => sizeOf k

/-! ## Claims C1 and C3 -/

/-- C1: for supported composite keys, equal normalized forms
(`make_hashable`) imply equal content digests (`make_md5`), which are
then actual strings (no exception). -/
theorem make_md5_eq_of_make_hashable_eq (k1 k2 : Key)
    (h1 : containsUnsupported k1 = false) (h2 : containsUnsupported k2 = false)
    (heq : make_hashable k1 = make_hashable k2) :
    ∃ s : String, make_md5 k1 = .ok s ∧ make_md5 k2 = .ok s := by
  refine ⟨md5Model (stream k1), ?_, ?_⟩
  · rw [make_md5, walk_ok k1 h1]
    rfl
  · rw [make_md5, walk_ok k2 h2]
    have hst : stream k1 = stream k2 := by
      rw [stream_freeze k1, stream_freeze k2]
      have hf : freezedicts k1 = freezedicts k2 := heq
      rw [hf]
    rw [← hst]
    rfl

/-- Witness for C1: two dicts with the same content in different
insertion order normalize identically, hence share their digest. -/
theorem make_md5_eq_of_make_hashable_eq_witness :
    ∃ s : String,
      make_md5 (.kmap [(.kstr [98], .kint 2), (.kstr [97], .kint 1)]) = .ok s ∧
      make_md5 (.kmap [(.kstr [97], .kint 1), (.kstr [98], .kint 2)]) = .ok s :=
  make_md5_eq_of_make_hashable_eq
    (.kmap [(.kstr [98], .kint 2), (.kstr [97], .kint 1)])
    (.kmap [(.kstr [97], .kint 1), (.kstr [98], .kint 2)])
    (by rfl) (by rfl) (by rfl)

/-- C3: a key containing an element of an unrecognized kind (e.g. a
float) makes `make_md5` raise `UnsupportedKeyType` instead of silently
succeeding. -/
theorem make_md5_raises_on_unsupported (k : Key)
    (h : containsUnsupported k = true) :
    make_md5 k = .error .unsupportedKeyType := by
  rw [make_md5, walk_error k h]
  rfl

/-- Witness for C3: a key with a float-like element raises. -/
theorem make_md5_raises_on_unsupported_witness :
    make_md5 (.kseq [.kstr [104], .kfloat 0]) = .error .unsupportedKeyType :=
  make_md5_raises_on_unsupported (.kseq [.kstr [104], .kfloat 0]) (by rfl)

/-! ## The value codec: `maybe_pickle` / `safe_unpickle`

`pickle` (the standard library, imported through `webassets.utils`) is
not under `src/`.  Modelled from the spec (§4.3): values other than raw
strings are serialized into an opaque, *reversible* byte encoding, and
decoding a payload that was not produced by the encoder fails.  We model
a tagged, self-delimiting encoding with a distinguished leading header
byte 128 (not itself decodable as a raw text payload), and a decoder
that rejects malformed input. -/

/-- A Python value stored in the cache: a raw byte string, or a
structured picklable value (int, bool, None, list). -/
inductive PyObj where
  | pstr (s : List Nat)
  | pint (n : Int)
  | pbool (b : Bool)
  | pnone
  | plist (xs : List PyObj)

/-- `isinstance(value, basestring)`. -/
def PyObj.isStr : PyObj → Bool
  | .pstr _ => true
  | _ => false

/-- Self-delimiting unary encoding of a natural number: `n` zero bytes
followed by a one byte. -/
def encNat : Nat → List Nat
  | 0 => [1]
  | n + 1 => 0 :: encNat n

/-- Decode a unary-encoded natural number, returning the remainder. -/
def decodeNat : List Nat → Option (Nat × List Nat)
  | [] => none
  | 1 :: rest => some (0, rest)
  | 0 :: rest =>
    match decodeNat rest with
    | some (n, r) => some (n + 1, r)
    | none => none
  | _ => none

theorem decodeNat_encNat (n : Nat) (r : List Nat) :
    decodeNat (encNat n ++ r) = some (n, r) := by
  induction n with
  | zero => rfl
  | succ n ih => simp [encNat, decodeNat, ih]

/-- Encoding of an integer: sign byte, then magnitude. -/
def encInt (n : Int) : List Nat :=
  if 0 ≤ n then 0 :: encNat n.toNat else 1 :: encNat (-n).toNat

mutual

/-- Tagged encoding of a structured value. -/
def encObj : PyObj → List Nat
  | .pstr s => 0 :: (encNat s.length ++ s)
  | .pint n => 1 :: encInt n
  | .pbool b => 2 :: [if b then 1 else 0]
  | .pnone => [3]
  | .plist xs => 4 :: (encNat xs.length ++ encList xs)

/-- Concatenated encodings of list elements. -/
def encList : List PyObj → List Nat
  | [] => []
  | x :: xs => encObj x ++ encList xs

end

mutual

/-- Fuel-bounded decoder for one tagged value, returning the remainder.
Each recursive step consumes one unit of fuel, so the recursion is
structural in the fuel. -/
def decodeObj : Nat → List Nat → Option (PyObj × List Nat)
  | 0, _ => none
  | _ + 1, 0 :: rest =>
    match decodeNat rest with
    | some (n, r) => if n ≤ r.length then some (.pstr (r.take n), r.drop n) else none
    | none => none
  | _ + 1, 1 :: 0 :: rest =>
    match decodeNat rest with
    | some (n, r) => some (.pint (n : Int), r)
    | none => none
  | _ + 1, 1 :: 1 :: rest =>
    match decodeNat rest with
    | some (n, r) => some (.pint (-(n : Int)), r)
    | none => none
  | _ + 1, 2 :: b :: rest => some (.pbool (b != 0), rest)
  | _ + 1, 3 :: rest => some (.pnone, rest)
  | fuel + 1, 4 :: rest =>
    match decodeNat rest with
    | some (n, r) =>
      match decodeList fuel n r with
      | some (vs, r2) => some (.plist vs, r2)
      | none => none
    | none => none
  | _ + 1, _ => none

/-- Fuel-bounded decoder for `n` consecutive values. -/
def decodeList : Nat → Nat → List Nat → Option (List PyObj × List Nat)
  | _, 0, r => some ([], r)
  | 0, _ + 1, _ => none
  | fuel + 1, n + 1, r =>
    match decodeObj fuel r with
    | some (v, r1) =>
      match decodeList fuel n r1 with
      | some (vs, r2) => some (v :: vs, r2)
      | none => none
    | none => none

end

/-- `pickle.dumps`, modelled: header byte then tagged encoding. -/
def pickleDumps (v : PyObj) : List Nat :=
  128 :: encObj v

/-- The failure of `pickle.loads` on malformed input (any unpickling
exception). -/
inductive UnpickleError where
  | badPickle

/-- `pickle.loads`, modelled: check the header, decode one value,
ignore any trailing bytes (as `loads` does); any format violation is an
error. -/
def pickleLoads (s : List Nat) : Except UnpickleError PyObj :=
  match s with
  | 128 :: rest =>
    match decodeObj (rest.length + 1) rest with
    | some (v, _) => .ok v
    | none => .error .badPickle
  | _ => .error .badPickle

/-- `maybe_pickle`: pickle the given value if it is not a string. -/
def maybe_pickle (value : PyObj) : List Nat :=
  match value with
  | .pstr s => s
  | v => pickleDumps v

/-- `safe_unpickle`: unpickle the string, or return `None` if that
fails. -/
def safe_unpickle (s : List Nat) : Option PyObj :=
  match pickleLoads s with
  | .ok v => some v
  | .error _ => none

mutual

/-- Fuel needed to decode the encoding of a value. -/
def PyObj.cost : PyObj → Nat
  | .pstr _ => 1
  | .pint _ => 1
  | .pbool _ => 1
  | .pnone => 1
  | .plist xs => 1 + PyObj.costList xs

/-- Fuel needed to decode the concatenated encodings of a list. -/
def PyObj.costList : List PyObj → Nat
  | [] => 0
  | x :: xs => 1 + PyObj.cost x + PyObj.costList xs

end

theorem encNat_length (n : Nat) : (encNat n).length = n + 1 := by
  induction n with
  | zero => rfl
  | succ n ih => simp [encNat, ih]

theorem costList_le_length_of (xs : List PyObj)
    (ih : ∀ x ∈ xs, PyObj.cost x ≤ (encObj x).length) :
    PyObj.costList xs + xs.length ≤ (encList xs).length + xs.length + xs.length := by
  induction xs with
  | nil => simp [PyObj.costList, encList]
  | cons x xs ihl =>
    have hx := ih x (by simp)
    have hrest := ihl (fun y hy => ih y (by simp [hy]))
    simp only [PyObj.costList, encList, List.length_append, List.length_cons]
    omega

/-- Each value's required fuel is bounded by its encoding length. -/
theorem cost_le_encObj_length : ∀ (v : PyObj), PyObj.cost v ≤ (encObj v).length
  | .pstr s => by simp [PyObj.cost, encObj]
  | .pint n => by simp [PyObj.cost, encObj]
  | .pbool b => by simp [PyObj.cost, encObj]
  | .pnone => by simp [PyObj.cost, encObj]
  | .plist xs => by
    have ih : ∀ x ∈ xs, PyObj.cost x ≤ (encObj x).length := fun x hx =>
      have : sizeOf x < 1 + sizeOf xs := by
        have := List.sizeOf_lt_of_mem hx
        omega
      cost_le_encObj_length x
    have h := costList_le_length_of xs ih
    simp only [PyObj.cost, encObj, List.length_cons, List.length_append,
      encNat_length]
    omega
termination_by v => sizeOf v

theorem decodeObj_pstr (fuel : Nat) (rest : List Nat) :
    decodeObj (fuel + 1) (0 :: rest) =
      (match decodeNat rest with
       | some (n, r) => if n ≤ r.length then some (.pstr (r.take n), r.drop n) else none
       | none => none) := rfl

theorem decodeObj_pintPos (fuel : Nat) (rest : List Nat) :
    decodeObj (fuel + 1) (1 :: 0 :: rest) =
      (match decodeNat rest with
       | some (n, r) => some (.pint (n : Int), r)
       | none => none) := rfl

theorem decodeObj_pintNeg (fuel : Nat) (rest : List Nat) :
    decodeObj (fuel + 1) (1 :: 1 :: rest) =
      (match decodeNat rest with
       | some (n, r) => some (.pint (-(n : Int)), r)
       | none => none) := rfl

theorem decodeObj_pbool (fuel b : Nat) (rest : List Nat) :
    decodeObj (fuel + 1) (2 :: b :: rest) = some (.pbool (b != 0), rest) := rfl

theorem decodeObj_pnone (fuel : Nat) (rest : List Nat) :
    decodeObj (fuel + 1) (3 :: rest) = some (.pnone, rest) := rfl

theorem decodeObj_plist (fuel : Nat) (rest : List Nat) :
    decodeObj (fuel + 1) (4 :: rest) =
      (match decodeNat rest with
       | some (n, r) =>
         (match decodeList fuel n r with
          | some (vs, r2) => some (.plist vs, r2)
          | none => none)
       | none => none) := rfl

theorem decodeList_succ (fuel n : Nat) (r : List Nat) :
    decodeList (fuel + 1) (n + 1) r =
      (match decodeObj fuel r with
       | some (v, r1) =>
         (match decodeList fuel n r1 with
          | some (vs, r2) => some (v :: vs, r2)
          | none => none)
       | none => none) := rfl

theorem decodeList_encList_of (xs : List PyObj)
    (ih : ∀ x ∈ xs, ∀ (fuel : Nat) (r : List Nat), PyObj.cost x ≤ fuel →
      decodeObj fuel (encObj x ++ r) = some (x, r)) :
    ∀ (fuel : Nat) (r : List Nat), PyObj.costList xs ≤ fuel →
      decodeList fuel xs.length (encList xs ++ r) = some (xs, r) := by
  induction xs with
  | nil =>
    intro fuel r _
    cases fuel <;> rfl
  | cons x xs ihl =>
    intro fuel r hf
    simp only [PyObj.costList] at hf
    obtain ⟨g, rfl⟩ : ∃ g, fuel = g + 1 := ⟨fuel - 1, by omega⟩
    simp only [encList, List.length_cons, List.append_assoc, decodeList_succ,
      ih x (by simp) g (encList xs ++ r) (by omega),
      ihl (fun y hy => ih y (by simp [hy])) g r (by omega)]

/-- Decoding inverts encoding, for any sufficient fuel. -/
theorem decodeObj_encObj : ∀ (v : PyObj) (fuel : Nat) (r : List Nat),
    PyObj.cost v ≤ fuel → decodeObj fuel (encObj v ++ r) = some (v, r)
  | .pstr s, fuel, r, hf => by
    simp only [PyObj.cost] at hf
    obtain ⟨g, rfl⟩ : ∃ g, fuel = g + 1 := ⟨fuel - 1, by omega⟩
    have e1 : encObj (.pstr s) ++ r = 0 :: (encNat s.length ++ (s ++ r)) := by
      simp [encObj]
    rw [e1, decodeObj_pstr, decodeNat_encNat]
    simp [List.take_left, List.drop_left]
  | .pint n, fuel, r, hf => by
    simp only [PyObj.cost] at hf
    obtain ⟨g, rfl⟩ : ∃ g, fuel = g + 1 := ⟨fuel - 1, by omega⟩
    by_cases hn : 0 ≤ n
    · have e1 : encObj (.pint n) ++ r = 1 :: 0 :: (encNat n.toNat ++ r) := by
        simp [encObj, encInt, if_pos hn]
      rw [e1, decodeObj_pintPos, decodeNat_encNat]
      simp [Int.toNat_of_nonneg hn]
    · have e1 : encObj (.pint n) ++ r = 1 :: 1 :: (encNat (-n).toNat ++ r) := by
        simp [encObj, encInt, if_neg hn]
      rw [e1, decodeObj_pintNeg, decodeNat_encNat]
      have e2 : -(((-n).toNat : Nat) : Int) = n := by omega
      show some (PyObj.pint (-(((-n).toNat : Nat) : Int)), r) = some (PyObj.pint n, r)
      rw [e2]
  | .pbool b, fuel, r, hf => by
    simp only [PyObj.cost] at hf
    obtain ⟨g, rfl⟩ : ∃ g, fuel = g + 1 := ⟨fuel - 1, by omega⟩
    have e1 : encObj (.pbool b) ++ r = 2 :: (if b then 1 else 0) :: r := by
      simp [encObj]
    rw [e1, decodeObj_pbool]
    cases b <;> rfl
  | .pnone, fuel, r, hf => by
    simp only [PyObj.cost] at hf
    obtain ⟨g, rfl⟩ : ∃ g, fuel = g + 1 := ⟨fuel - 1, by omega⟩
    have e1 : encObj .pnone ++ r = 3 :: r := by simp [encObj]
    rw [e1, decodeObj_pnone]
  | .plist xs, fuel, r, hf => by
    have ih : ∀ x ∈ xs, ∀ (fuel : Nat) (r : List Nat), PyObj.cost x ≤ fuel →
        decodeObj fuel (encObj x ++ r) = some (x, r) := fun x hx =>
      have : sizeOf x < 1 + sizeOf xs := by
        have := List.sizeOf_lt_of_mem hx
        omega
      decodeObj_encObj x
    simp only [PyObj.cost] at hf
    obtain ⟨g, rfl⟩ : ∃ g, fuel = g + 1 := ⟨fuel - 1, by omega⟩
    have e1 : encObj (.plist xs) ++ r
        = 4 :: (encNat xs.length ++ (encList xs ++ r)) := by
      simp [encObj]
    rw [e1, decodeObj_plist, decodeNat_encNat]
    show (match decodeList g xs.length (encList xs ++ r) with
      | some (vs, r2) => some (PyObj.plist vs, r2)
      | none => none) = some (PyObj.plist xs, r)
    rw [decodeList_encList_of xs ih g r (by omega)]
termination_by v _ _ _ => sizeOf v

/-- The codec round-trips every value: `loads (dumps v) = v`. -/
theorem pickleLoads_pickleDumps (v : PyObj) : pickleLoads (pickleDumps v) = .ok v := by
  have h : decodeObj ((encObj v).length + 1) (encObj v ++ []) = some (v, []) :=
    decodeObj_encObj v ((encObj v).length + 1) []
      (Nat.le_succ_of_le (cost_le_encObj_length v))
  rw [List.append_nil] at h
  simp [pickleLoads, pickleDumps, h]

/-! ## Claims C4 and C5 -/

/-- Counterexample to C4 as stated: for a raw string payload the
round-trip fails — `maybe_pickle` passes the string through unchanged,
and `safe_unpickle` cannot reverse a payload that was never pickled, so
it returns `None` rather than the original value. -/
theorem safe_unpickle_maybe_pickle_string_fails :
    safe_unpickle (maybe_pickle (PyObj.pstr [104, 101, 108, 108, 111]))
      ≠ some (PyObj.pstr [104, 101, 108, 108, 111]) := by
  rw [show safe_unpickle (maybe_pickle (PyObj.pstr [104, 101, 108, 108, 111]))
      = none from rfl]
  simp

/-- C4 (amended): decoding the encoding of a *non-string* value returns
the original value; raw string payloads pass through `maybe_pickle`
unchanged (they are returned raw by the stores, not decoded). -/
theorem safe_unpickle_maybe_pickle (v : PyObj) (s : List Nat)
    (h : v.isStr = false) :
    safe_unpickle (maybe_pickle v) = some v ∧ maybe_pickle (.pstr s) = s := by
  refine ⟨?_, rfl⟩
  have hmp : maybe_pickle v = pickleDumps v := by
    cases v <;> simp_all [PyObj.isStr, maybe_pickle]
  rw [hmp, safe_unpickle, pickleLoads_pickleDumps v]

/-- Witness for C4 (amended): the integer 42 round-trips; a raw string
passes through the encoder unchanged. -/
theorem safe_unpickle_maybe_pickle_witness :
    safe_unpickle (maybe_pickle (PyObj.pint 42)) = some (PyObj.pint 42) ∧
      maybe_pickle (.pstr [104, 105]) = [104, 105] :=
  safe_unpickle_maybe_pickle (PyObj.pint 42) [104, 105] (by rfl)

/-- C5: `safe_unpickle` is total — for every payload it either returns
the value the underlying unpickler recovers, or returns `None`; the
unpickler's failure on corrupted or truncated payloads is never
propagated as an exception. -/
theorem safe_unpickle_never_raises (payload : List Nat) :
    (∃ v, pickleLoads payload = .ok v ∧ safe_unpickle payload = some v) ∨
      safe_unpickle payload = none := by
  cases h : pickleLoads payload with
  | ok v => exact Or.inl ⟨v, rfl, by simp [safe_unpickle, h]⟩
  | error e => exact Or.inr (by simp [safe_unpickle, h])

example : safe_unpickle ((pickleDumps (PyObj.pint 5)).take 3) = none := by rfl

/-! ## The bounded memory store (`MemoryCache`) -/

/-- `MemoryCache` state: the configured capacity, the recency list of
normalized keys (least recently written first), and the mapping from
normalized keys to values, modelled as an association list. -/
structure MemoryCache (α : Type) where
  capacity : Nat
  keys : List Key
  cache : List (Key × α)

/-- `MemoryCache.__init__(capacity)`. -/
def MemoryCache.mkEmpty (α : Type) (capacity : Nat) : MemoryCache α :=
  ⟨capacity, [], []⟩

/-- Python dict lookup `d.get(k, None)` on the association-list model. -/
def dictGet {α : Type} (d : List (Key × α)) (k : Key) : Option α :=
  match d.find? (fun p => p.1 == k) with
  | some p => some p.2
  | none => none

/-- Python `k in d`. -/
def dictHasKey {α : Type} (d : List (Key × α)) (k : Key) : Bool :=
  (d.find? (fun p => p.1 == k)).isSome

/-- Python dict update `d[k] = v`: replace the value in place if the
key is present, otherwise append a new entry. -/
def dictSet {α : Type} (d : List (Key × α)) (k : Key) (v : α) : List (Key × α) :=
  if dictHasKey d k then d.map (fun p => if p.1 == k then (p.1, v) else p)
  else d ++ [(k, v)]

/-- Python `del d[k]` (callers only delete keys that are present). -/
def dictDel {α : Type} (d : List (Key × α)) (k : Key) : List (Key × α) :=
  d.filter (fun p => !(p.1 == k))

/-- `MemoryCache.get`: normalize the key and look it up, `None` when
missing; the source's unused `python` flag is dropped.  The result is
returned with the post-state, which the method leaves untouched. -/
def MemoryCache.get {α : Type} (s : MemoryCache α) (key : Key) :
    Option α × MemoryCache α :=
  (dictGet s.cache (make_hashable key), s)

/-- `MemoryCache.set`: normalize, upsert into the mapping, move the key
to the most-recently-written end of the recency list, then evict the
oldest keys (and their mapping entries) down to the capacity. -/
def MemoryCache.set {α : Type} (s : MemoryCache α) (key : Key) (value : α) :
    MemoryCache α :=
  let k := make_hashable key
  let cache1 := dictSet s.cache k value
  let keys1 := s.keys.erase k ++ [k]
  let to_delete := keys1.take (keys1.length - s.capacity)
  let keys2 := keys1.drop to_delete.length
  let cache2 := to_delete.foldl (fun c i => dictDel c i) cache1
  ⟨s.capacity, keys2, cache2⟩

/-- A sequence of `set` calls. -/
def applySets {α : Type} (s : MemoryCache α) (ops : List (Key × α)) :
    MemoryCache α :=
  ops.foldl (fun t p => t.set p.1 p.2) s

/-- A store operation: a read or a write. -/
inductive MOp (α : Type) where
  | mget (key : Key)
  | mset (key : Key) (value : α)

/-- Run one operation. -/
def MemoryCache.run {α : Type} (s : MemoryCache α) : MOp α → MemoryCache α
  | .mget key => (s.get key).2
  | .mset key value => s.set key value

/-- A sequence of `get`/`set` calls. -/
def applyOps {α : Type} (s : MemoryCache α) (ops : List (MOp α)) : MemoryCache α :=
  ops.foldl MemoryCache.run s

/-- Internal well-formedness of a memory store: the recency list has no
duplicates, tracks exactly the mapping's keys, and fits the capacity. -/
def MemoryCache.WF {α : Type} (s : MemoryCache α) : Prop :=
  s.keys.Nodup ∧ s.keys.Perm (s.cache.map Prod.fst) ∧ s.keys.length ≤ s.capacity

/-! ### Dictionary lemmas -/

theorem dictSet_map_fst {α : Type} (d : List (Key × α)) (k : Key) (v : α) :
    (dictSet d k v).map Prod.fst =
      if dictHasKey d k then d.map Prod.fst else d.map Prod.fst ++ [k] := by
  unfold dictSet
  by_cases h : dictHasKey d k
  · rw [if_pos h, if_pos h, List.map_map]
    exact List.map_congr_left (fun p _ => by
      show (if p.1 == k then (p.1, v) else p).1 = p.1
      split <;> rfl)
  · rw [if_neg h, if_neg h]
    simp

theorem dictHasKey_iff_mem {α : Type} (d : List (Key × α)) (k : Key) :
    dictHasKey d k = true ↔ k ∈ d.map Prod.fst := by
  simp only [dictHasKey, List.find?_isSome, List.mem_map, beq_iff_eq]

theorem dictGet_eq_none_of_not_mem {α : Type} {d : List (Key × α)} {k : Key}
    (h : k ∉ d.map Prod.fst) : dictGet d k = none := by
  have : d.find? (fun p => p.1 == k) = none := by
    rw [List.find?_eq_none]
    intro p hp hbeq
    exact h (List.mem_map.mpr ⟨p, hp, by simpa using hbeq⟩)
  simp [dictGet, this]

theorem foldl_dictDel_eq_filter {α : Type} (ts : List Key) (d : List (Key × α)) :
    ts.foldl (fun c i => dictDel c i) d = d.filter (fun p => !(ts.contains p.1)) := by
  induction ts generalizing d with
  | nil => simp
  | cons t ts ih =>
    rw [List.foldl_cons, ih]
    simp only [dictDel, List.filter_filter]
    apply List.filter_congr
    intro p _
    rw [List.contains_cons]
    cases hpt : p.1 == t <;> simp [hpt]

theorem map_fst_filter_fst {α : Type} (f : Key → Bool) (d : List (Key × α)) :
    (d.filter (fun p => f p.1)).map Prod.fst = (d.map Prod.fst).filter f := by
  induction d with
  | nil => rfl
  | cons p d ih =>
    by_cases hp : f p.1
    · simp [hp, ih]
    · simp [hp, ih]

theorem dictGet_filter_out {α : Type} (ts : List Key) (d : List (Key × α))
    (x : Key) (hx : x ∈ ts) :
    dictGet (d.filter (fun p => !(ts.contains p.1))) x = none := by
  apply dictGet_eq_none_of_not_mem
  rw [map_fst_filter_fst (fun x => !(ts.contains x)) d]
  intro hmem
  have hpred := List.of_mem_filter hmem
  simp only [Bool.not_eq_true'] at hpred
  have h2 : ts.contains x = true :=
    List.contains_iff_exists_mem_beq.mpr ⟨x, hx, by simp⟩
  rw [h2] at hpred
  exact Bool.noConfusion hpred

theorem contains_false_of_not_mem {x : Key} {l : List Key} (h : x ∉ l) :
    l.contains x = false := by
  cases hc : l.contains x
  · rfl
  · obtain ⟨y, hy, hxy⟩ := List.contains_iff_exists_mem_beq.mp hc
    rw [beq_iff_eq] at hxy
    exact absurd (hxy ▸ hy) h

theorem MemoryCache.set_capacity {α : Type} (s : MemoryCache α) (key : Key)
    (v : α) : (s.set key v).capacity = s.capacity := rfl

theorem MemoryCache.set_keys {α : Type} (s : MemoryCache α) (key : Key) (v : α) :
    (s.set key v).keys =
      (s.keys.erase (make_hashable key) ++ [make_hashable key]).drop
        ((s.keys.erase (make_hashable key) ++ [make_hashable key]).length
          - s.capacity) := by
  simp only [MemoryCache.set, List.length_take]
  congr 1
  omega

theorem MemoryCache.set_cache {α : Type} (s : MemoryCache α) (key : Key) (v : α) :
    (s.set key v).cache =
      (dictSet s.cache (make_hashable key) v).filter
        (fun p => !(((s.keys.erase (make_hashable key) ++ [make_hashable key]).take
          ((s.keys.erase (make_hashable key) ++ [make_hashable key]).length
            - s.capacity)).contains p.1)) := by
  simp only [MemoryCache.set, foldl_dictDel_eq_filter]

/-- Full characterization of one `set` call on a well-formed store:
well-formedness is preserved; the surviving recency list is the
appended list minus its `d` oldest keys; exactly `d` mapping entries are
gone; and each of the `d` oldest keys no longer resolves. -/
theorem MemoryCache.set_spec {α : Type} (s : MemoryCache α) (key : Key) (v : α)
    (hwf : s.WF) (hk : Key) (a : List Key) (d : Nat)
    (hhk : hk = make_hashable key) (ha : a = s.keys.erase hk ++ [hk])
    (hd : d = a.length - s.capacity) :
    (s.set key v).WF ∧ (s.set key v).keys = a.drop d ∧
      (s.set key v).cache.length + d = a.length ∧
      ∀ x ∈ a.take d, dictGet (s.set key v).cache x = none := by
  obtain ⟨hnodup, hperm, hlen⟩ := hwf
  subst hhk
  subst ha
  subst hd
  have hkeys := MemoryCache.set_keys s key v
  have hcache := MemoryCache.set_cache s key v
  -- the appended recency list has no duplicates
  have hanodup : (s.keys.erase (make_hashable key) ++ [make_hashable key]).Nodup := by
    rw [List.nodup_append]
    refine ⟨hnodup.erase _, List.nodup_singleton _, ?_⟩
    intro x hx hx2
    rw [List.mem_singleton] at hx2
    subst hx2
    exact hnodup.not_mem_erase hx
  -- the appended list is a permutation of the upserted mapping's keys
  have hperm1 : (s.keys.erase (make_hashable key) ++ [make_hashable key]).Perm
      ((dictSet s.cache (make_hashable key) v).map Prod.fst) := by
    rw [dictSet_map_fst]
    by_cases hmem : dictHasKey s.cache (make_hashable key) = true
    · rw [if_pos hmem]
      have hk_in : make_hashable key ∈ s.cache.map Prod.fst :=
        (dictHasKey_iff_mem _ _).mp hmem
      have hk_keys : make_hashable key ∈ s.keys := hperm.mem_iff.mpr hk_in
      exact ((List.perm_append_singleton _ _).trans
        (List.perm_cons_erase hk_keys).symm).trans hperm
    · rw [if_neg hmem]
      have hk_nin : make_hashable key ∉ s.cache.map Prod.fst := fun h =>
        hmem ((dictHasKey_iff_mem _ _).mpr h)
      have hk_keys : make_hashable key ∉ s.keys := fun h =>
        hk_nin (hperm.mem_iff.mp h)
      rw [List.erase_of_not_mem hk_keys]
      exact hperm.append_right [make_hashable key]
  -- notation for the appended list and the eviction count
  generalize hA : s.keys.erase (make_hashable key) ++ [make_hashable key] = a
    at hkeys hcache hanodup hperm1
  generalize hD : a.length - s.capacity = d at hkeys hcache
  have hdle : d ≤ a.length := by omega
  -- the survivors' keys are exactly the filtered mapping's keys
  have hsplit : (a.take d ++ a.drop d).Nodup := by
    rw [List.take_append_drop]
    exact hanodup
  have hdisj := List.disjoint_of_nodup_append hsplit
  have key0 : ∀ (q : Key → Bool), (∀ x ∈ a.take d, q x = false) →
      (∀ x ∈ a.drop d, q x = true) → a.filter q = a.drop d := by
    intro q hq1 hq2
    conv => lhs; rw [← List.take_append_drop d a]
    rw [List.filter_append,
      List.filter_eq_nil_iff.mpr (fun x hx => by simp [hq1 x hx]),
      List.filter_eq_self.mpr hq2, List.nil_append]
  have hfilter_a : a.filter (fun x => !((a.take d).contains x)) = a.drop d := by
    refine key0 _ (fun x hx => ?_) (fun x hx => ?_)
    · have hcx : (a.take d).contains x = true :=
        List.contains_iff_exists_mem_beq.mpr ⟨x, hx, by simp⟩
      simp only [hcx, Bool.not_true]
    · have hnx : x ∉ a.take d := fun hx' => hdisj hx' hx
      simp only [contains_false_of_not_mem hnx, Bool.not_false]
  have hperm2 : (s.set key v).keys.Perm ((s.set key v).cache.map Prod.fst) := by
    rw [hkeys, hcache, map_fst_filter_fst (fun x => !((a.take d).contains x)), ← hfilter_a]
    exact hperm1.filter _
  have hkeyslen : (s.set key v).keys.length = a.length - d := by
    rw [hkeys, List.length_drop]
  refine ⟨⟨?_, hperm2, ?_⟩, hkeys, ?_, ?_⟩
  · rw [hkeys]
    exact hanodup.sublist (List.drop_sublist d a)
  · rw [MemoryCache.set_capacity, hkeyslen]
    omega
  · have := hperm2.length_eq
    rw [List.length_map] at this
    rw [← this, hkeyslen]
    omega
  · intro x hx
    rw [hcache]
    exact dictGet_filter_out _ _ x hx

theorem MemoryCache.WF_mkEmpty (α : Type) (C : Nat) :
    (MemoryCache.mkEmpty α C).WF :=
  ⟨List.nodup_nil, List.Perm.refl _, Nat.zero_le C⟩

theorem MemoryCache.WF_set {α : Type} (s : MemoryCache α) (key : Key) (v : α)
    (hwf : s.WF) : (s.set key v).WF :=
  (MemoryCache.set_spec s key v hwf _ _ _ rfl rfl rfl).1

theorem MemoryCache.WF_run {α : Type} (s : MemoryCache α) (op : MOp α)
    (hwf : s.WF) : (s.run op).WF := by
  cases op with
  | mget key => exact hwf
  | mset key value => exact MemoryCache.WF_set s key value hwf

theorem applySets_capacity {α : Type} (s : MemoryCache α) (ops : List (Key × α)) :
    (applySets s ops).capacity = s.capacity := by
  induction ops generalizing s with
  | nil => rfl
  | cons p ops ih => exact (ih (s.set p.1 p.2)).trans rfl

theorem applyOps_capacity {α : Type} (s : MemoryCache α) (ops : List (MOp α)) :
    (applyOps s ops).capacity = s.capacity := by
  induction ops generalizing s with
  | nil => rfl
  | cons op ops ih =>
    refine (ih (s.run op)).trans ?_
    cases op <;> rfl

theorem WF_applySets {α : Type} (s : MemoryCache α) (ops : List (Key × α))
    (hwf : s.WF) : (applySets s ops).WF := by
  induction ops generalizing s with
  | nil => exact hwf
  | cons p ops ih => exact ih (s.set p.1 p.2) (MemoryCache.WF_set s p.1 p.2 hwf)

theorem WF_applyOps {α : Type} (s : MemoryCache α) (ops : List (MOp α))
    (hwf : s.WF) : (applyOps s ops).WF := by
  induction ops generalizing s with
  | nil => exact hwf
  | cons op ops ih => exact ih (s.run op) (MemoryCache.WF_run s op hwf)

/-! ## Claims C2, C9 and C10 -/

/-- C2: after any sequence of `set` calls on a store of capacity `C`,
the mapping holds at most `C` entries; a further `set` keeps exactly the
`a.length - C` most recent keys of the appended recency list `a`
(evicting the oldest first, and only that many), removes exactly that
many mapping entries, and every evicted key no longer resolves. -/
theorem MemoryCache.capacity_eviction_spec (α : Type) (C : Nat)
    (ops : List (Key × α)) (key : Key) (value : α) :
    let s := applySets (MemoryCache.mkEmpty α C) ops
    let a := s.keys.erase (make_hashable key) ++ [make_hashable key]
    let d := a.length - C
    let t := s.set key value
    s.cache.length ≤ C ∧ t.cache.length ≤ C ∧ t.keys = a.drop d ∧
      t.cache.length + d = a.length ∧
      ((a.take d).all (fun x => (dictGet t.cache x).isNone)) = true := by
  intro s a d t
  have hS : s = applySets (MemoryCache.mkEmpty α C) ops := rfl
  have hA : a = s.keys.erase (make_hashable key) ++ [make_hashable key] := rfl
  have hD : d = a.length - C := rfl
  have hT : t = s.set key value := rfl
  clear_value t d a s
  subst hT
  have hwf : s.WF := by
    rw [hS]
    exact WF_applySets _ ops (MemoryCache.WF_mkEmpty α C)
  have hcap : s.capacity = C := by
    rw [hS]
    exact applySets_capacity _ ops
  have hspec := MemoryCache.set_spec s key value hwf (make_hashable key) a d
    rfl hA (by rw [hcap]; exact hD)
  obtain ⟨⟨tnodup, tperm, tlen⟩, hkeys, hcount, hevict⟩ := hspec
  have hslen : s.cache.length ≤ C := by
    have h1 := hwf.2.1.length_eq
    rw [List.length_map] at h1
    have h2 := hwf.2.2
    omega
  have htlen : (s.set key value).cache.length ≤ C := by
    have h1 := tperm.length_eq
    rw [List.length_map] at h1
    have h2 : (s.set key value).keys.length = a.length - d := by
      rw [hkeys, List.length_drop]
    omega
  refine ⟨hslen, htlen, hkeys, hcount, ?_⟩
  rw [List.all_eq_true]
  intro x hx
  rw [Option.isNone_iff_eq_none]
  exact hevict x hx

/-- C9: `MemoryCache.get` has no effect on the store: both the mapping
and the recency list are unchanged (reads do not refresh recency). -/
theorem MemoryCache.get_leaves_state (α : Type) (s : MemoryCache α) (key : Key) :
    (s.get key).2.cache = s.cache ∧ (s.get key).2.keys = s.keys ∧
      (s.get key).2 = s :=
  ⟨rfl, rfl, rfl⟩

/-- C10: starting from an empty store of capacity at least 1, after any
sequence of `get`/`set` operations the recency list has no duplicates,
is a permutation of the mapping's keys, and has the same length as the
mapping. -/
theorem MemoryCache.recency_list_invariant (α : Type) (C : Nat) (_hC : 1 ≤ C)
    (ops : List (MOp α)) :
    let s := applyOps (MemoryCache.mkEmpty α C) ops
    s.keys.Nodup ∧ s.keys.Perm (s.cache.map Prod.fst) ∧
      s.keys.length = s.cache.length := by
  intro s
  have hwf : s.WF := WF_applyOps _ ops (MemoryCache.WF_mkEmpty α C)
  refine ⟨hwf.1, hwf.2.1, ?_⟩
  have h1 := hwf.2.1.length_eq
  rw [List.length_map] at h1
  exact h1

/-- Witness for C10 at a concrete capacity-1 store and operation list. -/
theorem MemoryCache.recency_list_invariant_witness :
    (applyOps (MemoryCache.mkEmpty Nat 1)
        [.mset (.kint 1) 10, .mget (.kint 1), .mset (.kint 2) 20]).keys.Nodup ∧
      (applyOps (MemoryCache.mkEmpty Nat 1)
        [.mset (.kint 1) 10, .mget (.kint 1), .mset (.kint 2) 20]).keys.Perm
        ((applyOps (MemoryCache.mkEmpty Nat 1)
          [.mset (.kint 1) 10, .mget (.kint 1), .mset (.kint 2) 20]).cache.map
            Prod.fst) ∧
      (applyOps (MemoryCache.mkEmpty Nat 1)
        [.mset (.kint 1) 10, .mget (.kint 1), .mset (.kint 2) 20]).keys.length =
      (applyOps (MemoryCache.mkEmpty Nat 1)
        [.mset (.kint 1) 10, .mget (.kint 1), .mset (.kint 2) 20]).cache.length :=
  MemoryCache.recency_list_invariant Nat 1 (by decide)
    [.mset (.kint 1) 10, .mget (.kint 1), .mset (.kint 2) 20]

/-! ## Store equality (`MemoryCache.__eq__`) and the factory's option
universe -/

/-- A Python value that a store may be compared against, or that the
factory receives as its `option`: plain configuration values, store
instances (identified by their `id()`), or a `BaseCache` subclass whose
no-argument constructor yields a fixed default instance. -/
inductive CacheOpt where
  | pynone
  | pybool (b : Bool)
  | pyint (n : Int)
  | pystr (s : String)
  | instMem (oid : Nat) (capacity : Nat)
  | instFs (oid : Nat) (directory : String)
  | cacheCls (defaultOid : Nat)
deriving DecidableEq

/-- Python truthiness (`not option` is the negation of this). -/
def CacheOpt.truthy : CacheOpt → Bool
  | .pynone => false
  | .pybool b => b
  | .pyint n => !(n == 0)
  | .pystr s => !(s == "")
  | _ => true

/-- A value representing a *disabled* store configuration (falsy). -/
def CacheOpt.falsy (o : CacheOpt) : Bool := !o.truthy

/-- Python `False == other` over this universe.  Plain values compare
by value (`False == False`; numerically `False == 0`); `None`, strings
and classes are not equal to `False`.  When `other` is a `MemoryCache`
instance, `bool.__eq__(False, other)` returns `NotImplemented` and
Python dispatches the *reflected* comparison `other.__eq__(False)`,
which evaluates `False == False or None == False or id(other) ==
id(False)` and is therefore `True`: every `MemoryCache` instance,
identical or not, compares equal to `False`.  For a `FilesystemCache`
instance the reflected `__eq__` evaluates `True == False or
self.directory == False or id(self) == id(False)`, all `False`. -/
def pyEqFalse : CacheOpt → Bool
  | .pybool b => !b
  | .pyint n => n == 0
  | .instMem _ _ => true
  | _ => false

/-- Python `None == other`: `None` itself, and — by the same reflected
dispatch — any `MemoryCache` instance (`other.__eq__(None)` evaluates
`False == None or None == None or ...`, and `None == None` is `True`).
For a `FilesystemCache` instance the reflected `__eq__` evaluates
`True == None or self.directory == None or id(self) == id(None)`, all
`False`. -/
def pyEqNone : CacheOpt → Bool
  | .pynone => true
  | .instMem _ _ => true
  | _ => false

/-- The `id()` of a comparand, when it is a store instance. -/
def CacheOpt.instId : CacheOpt → Option Nat
  | .instMem i _ => some i
  | .instFs i _ => some i
  | _ => none

/-- `MemoryCache.__eq__` for a store instance whose `id()` is `selfId`:
`False == other or None == other or id(self) == id(other)`, with the
two `==` comparisons carrying Python's reflected-dispatch semantics
(see `pyEqFalse`, `pyEqNone`). -/
def memEq (selfId : Nat) (other : CacheOpt) : Bool :=
  pyEqFalse other || pyEqNone other || (other.instId == some selfId)

/-- Counterexample to C8 as stated, in both directions of the claimed
equivalence: the empty string represents a disabled configuration
(falsy) yet does not compare equal, and a *distinct* `MemoryCache`
instance compares equal (through reflected `__eq__` dispatch,
`False == other` is `True` for it) although it is neither disabled nor
the identical instance. -/
theorem memEq_not_iff_disabled :
    (CacheOpt.falsy (CacheOpt.pystr "") = true ∧
      memEq 0 (CacheOpt.pystr "") = false) ∧
    (memEq 0 (CacheOpt.instMem 1 5) = true ∧
      CacheOpt.falsy (CacheOpt.instMem 1 5) = false ∧
      CacheOpt.instId (CacheOpt.instMem 1 5) ≠ some 0) := by
  decide

/-- C8 (amended): a complete case analysis of `MemoryCache.__eq__`.
Equality holds for `False`, `None`, values numerically equal to `False`
(zero), *any* `MemoryCache` instance — identical or not, via reflected
`__eq__` dispatch — and any comparand whose `id()` equals the
instance's own (for live distinct objects this means the identical
instance).  It fails for every other value: truthy plain values, all
non-empty and empty strings alike, `FilesystemCache` instances with a
different `id()`, and classes.  In particular equality is neither
implied by being disabled (the empty string is falsy but unequal) nor
restricted to the identical instance. -/
theorem memEq_characterization (selfId i c : Nat) (m : Int) (s : String)
    (dir : String) (hm : m ≠ 0) (hi : i ≠ selfId) :
    memEq selfId (.pybool false) = true ∧
    memEq selfId .pynone = true ∧
    memEq selfId (.pyint 0) = true ∧
    memEq selfId (.instMem i c) = true ∧
    memEq selfId (.instFs selfId dir) = true ∧
    memEq selfId (.pybool true) = false ∧
    memEq selfId (.pyint m) = false ∧
    memEq selfId (.pystr s) = false ∧
    memEq selfId (.instFs i dir) = false ∧
    memEq selfId (.cacheCls c) = false := by
  refine ⟨rfl, rfl, by simp [memEq, pyEqFalse], rfl, ?_, rfl, ?_, rfl, ?_, rfl⟩
  · simp [memEq, pyEqFalse, pyEqNone, CacheOpt.instId]
  · simp [memEq, pyEqFalse, pyEqNone, CacheOpt.instId, hm]
  · simp [memEq, pyEqFalse, pyEqNone, CacheOpt.instId, hi]

/-- Witness for C8 (amended) at concrete ids and values: instance id 0
compared against, among others, the distinct instance id 1 and the
nonzero number 5. -/
theorem memEq_characterization_witness :
    memEq 0 (.pybool false) = true ∧
    memEq 0 .pynone = true ∧
    memEq 0 (.pyint 0) = true ∧
    memEq 0 (.instMem 1 7) = true ∧
    memEq 0 (.instFs 0 "/d") = true ∧
    memEq 0 (.pybool true) = false ∧
    memEq 0 (.pyint 5) = false ∧
    memEq 0 (.pystr "") = false ∧
    memEq 0 (.instFs 1 "/d") = false ∧
    memEq 0 (.cacheCls 7) = false :=
  memEq_characterization 0 1 7 5 "" "/d" (by decide) (by decide)

/-! ## The persistent file store (`FilesystemCache`) -/

/-- A file-system state: files (full path to content) and the set of
existing directories. -/
structure FS where
  files : List (String × List Nat)
  dirs : List String

/-- `os.path.join` for the POSIX-style paths used here. -/
def pathJoin (dir name : String) : String := dir ++ "/" ++ name

/-- `os.path.exists` plus `open(filename, 'rb').read()`: the full
content when the file exists, `none` otherwise. -/
def FS.read (fs : FS) (path : String) : Option (List Nat) :=
  match fs.files.find? (fun p => p.1 == path) with
  | some p => some p.2
  | none => none

/-- `open(filename, 'wb').write(content)`: create or fully overwrite. -/
def FS.write (fs : FS) (path : String) (content : List Nat) : FS :=
  ⟨(path, content) :: fs.files.filter (fun p => !(p.1 == path)), fs.dirs⟩

/-- External deletion of a file. -/
def FS.delete (fs : FS) (path : String) : FS :=
  ⟨fs.files.filter (fun p => !(p.1 == path)), fs.dirs⟩

/-- `os.path.exists` for a directory. -/
def FS.dirExists (fs : FS) (dir : String) : Bool := fs.dirs.contains dir

/-- `os.makedirs`. -/
def FS.makedirs (fs : FS) (dir : String) : FS := ⟨fs.files, dir :: fs.dirs⟩

theorem FS.read_write (fs : FS) (path : String) (content : List Nat) :
    (fs.write path content).read path = some content := by
  simp [FS.read, FS.write, List.find?]

theorem FS.read_delete (fs : FS) (path : String) :
    (fs.delete path).read path = none := by
  have h : (fs.files.filter (fun p => !(p.1 == path))).find?
      (fun p => p.1 == path) = none := by
    rw [List.find?_eq_none]
    intro p hp
    have := List.of_mem_filter hp
    simp only [Bool.not_eq_true'] at this
    simp [this]
  simp [FS.read, FS.delete, h]

/-- `FilesystemCache.get`: digest the key; when no file named by the
digest exists under the root, return `None`; otherwise read the whole
file and, when `python` is set, unpickle it (failure yielding `None`). -/
def FilesystemCache.get (directory : String) (fs : FS) (key : Key)
    (python : Bool) : Except PyExc (Option PyObj) :=
  match make_md5 key with
  | .error e => .error e
  | .ok digest =>
    match fs.read (pathJoin directory digest) with
    | none => .ok none
    | some content =>
      if python then .ok (safe_unpickle content)
      else .ok (some (.pstr content))

/-- `FilesystemCache.set`: digest the key and write the (pickled when
non-string) value to the file named by the digest under the root. -/
def FilesystemCache.set (directory : String) (fs : FS) (key : Key)
    (data : PyObj) : Except PyExc FS :=
  match make_md5 key with
  | .error e => .error e
  | .ok digest => .ok (fs.write (pathJoin directory digest) (maybe_pickle data))

/-! ## Claim C6 -/

/-- C6: behaviour of the file store on a supported key with digest
`digest`: a read misses (`None`) when no file named by the digest
exists under the root; otherwise it returns the full stored content,
decoded by the codec exactly when the caller asks for a non-raw value;
after `set key s` the digest file holds `s` and a raw read returns it;
external deletion of the digest file makes the read miss again. -/
theorem FilesystemCache.get_set_spec (directory : String) (fs0 fs1 fs2 : FS)
    (key : Key) (digest : String) (c s : List Nat) (python : Bool)
    (hd : make_md5 key = .ok digest)
    (h0 : fs0.read (pathJoin directory digest) = none)
    (h1 : fs1.read (pathJoin directory digest) = some c) :
    FilesystemCache.get directory fs0 key python = .ok none ∧
    FilesystemCache.get directory fs1 key false = .ok (some (.pstr c)) ∧
    FilesystemCache.get directory fs1 key true = .ok (safe_unpickle c) ∧
    FilesystemCache.set directory fs2 key (.pstr s)
      = .ok (fs2.write (pathJoin directory digest) s) ∧
    FilesystemCache.get directory (fs2.write (pathJoin directory digest) s) key
      false = .ok (some (.pstr s)) ∧
    FilesystemCache.get directory
      ((fs2.write (pathJoin directory digest) s).delete
        (pathJoin directory digest)) key python = .ok none := by
  refine ⟨?_, ?_, ?_, ?_, ?_, ?_⟩
  · simp [FilesystemCache.get, hd, h0]
  · simp [FilesystemCache.get, hd, h1]
  · simp [FilesystemCache.get, hd, h1]
  · simp [FilesystemCache.set, hd, maybe_pickle]
  · simp [FilesystemCache.get, hd, FS.read_write]
  · simp [FilesystemCache.get, hd, FS.read_delete]

/-- Witness for C6 at the key `kstr []`, whose digest evaluates to a
concrete hex string. -/
theorem FilesystemCache.get_set_spec_witness :
    FilesystemCache.get "/r" (FS.mk [] []) (.kstr []) true = .ok none ∧
    FilesystemCache.get "/r"
      (FS.mk [("/r/100000000000000000000000000000007", [104])] [])
      (.kstr []) false = .ok (some (.pstr [104])) ∧
    FilesystemCache.get "/r"
      (FS.mk [("/r/100000000000000000000000000000007", [104])] [])
      (.kstr []) true = .ok (safe_unpickle [104]) ∧
    FilesystemCache.set "/r" (FS.mk [] []) (.kstr []) (.pstr [104, 105])
      = .ok ((FS.mk [] []).write
          (pathJoin "/r" "100000000000000000000000000000007") [104, 105]) ∧
    FilesystemCache.get "/r"
      ((FS.mk [] []).write (pathJoin "/r" "100000000000000000000000000000007")
        [104, 105]) (.kstr []) false = .ok (some (.pstr [104, 105])) ∧
    FilesystemCache.get "/r"
      (((FS.mk [] []).write (pathJoin "/r" "100000000000000000000000000000007")
        [104, 105]).delete (pathJoin "/r" "100000000000000000000000000000007"))
      (.kstr []) true = .ok none :=
  FilesystemCache.get_set_spec "/r" (FS.mk [] [])
    (FS.mk [("/r/100000000000000000000000000000007", [104])] []) (FS.mk [] [])
    (.kstr []) "100000000000000000000000000000007" [104] [104, 105] true
    (by rfl) (by rfl) (by rfl)

/-! ## The store factory (`get_cache`) -/

/-- The factory's result: no store; the given instance as-is; a fresh
default instance of the given class; or a `FilesystemCache` rooted at
the given directory value. -/
inductive GCResult where
  | noCache
  | asIs (option : CacheOpt)
  | newFromCls (oid : Nat)
  | fsRooted (directory : CacheOpt)
deriving DecidableEq

/-- `isinstance(option, BaseCache)`. -/
def CacheOpt.isInst : CacheOpt → Bool
  | .instMem _ _ => true
  | .instFs _ _ => true
  | _ => false

/-- `isinstance(option, type) and issubclass(option, BaseCache)`. -/
def CacheOpt.isCls : CacheOpt → Bool
  | .cacheCls _ => true
  | _ => false

/-- The instance produced by calling the class with no arguments. -/
def CacheOpt.clsDefault : CacheOpt → Nat
  | .cacheCls i => i
  | _ => 0

/-- `get_cache(option, env)`: resolve a configuration option into a
store.  A falsy option disables caching; an existing store instance is
used as-is; a store class is instantiated with defaults; `True` selects
a `FilesystemCache` under the default `.webassets-cache` subdirectory of
the environment's directory, creating it if absent; any other value is
used as the cache directory itself. -/
def get_cache (option : CacheOpt) (envDirectory : String) (fs : FS) :
    GCResult × FS :=
  if !option.truthy then (.noCache, fs)
  else if option.isInst then (.asIs option, fs)
  else if option.isCls then (.newFromCls option.clsDefault, fs)
  else if option == .pybool true then
    let directory := pathJoin envDirectory ".webassets-cache"
    let fs1 := if fs.dirExists directory then fs else fs.makedirs directory
    (.fsRooted (.pystr directory), fs1)
  else (.fsRooted option, fs)

/-! ## Claim C7 -/

/-- C7: the factory's case analysis — falsy options yield no store and
leave the file system alone; instances are returned as-is; classes are
instantiated with defaults; `True` yields a persistent store rooted at
the default subdirectory of the environment's root, which exists
afterwards (created if absent); any other value becomes the store's
root directory itself. -/
theorem get_cache_spec (option : CacheOpt) (envDirectory : String) (fs : FS) :
    (CacheOpt.falsy option = true →
      get_cache option envDirectory fs = (.noCache, fs)) ∧
    (CacheOpt.isInst option = true →
      get_cache option envDirectory fs = (.asIs option, fs)) ∧
    (CacheOpt.isCls option = true →
      get_cache option envDirectory fs
        = (.newFromCls (CacheOpt.clsDefault option), fs)) ∧
    (option = .pybool true →
      (get_cache option envDirectory fs).1
        = .fsRooted (.pystr (pathJoin envDirectory ".webassets-cache")) ∧
      FS.dirExists (get_cache option envDirectory fs).2
        (pathJoin envDirectory ".webassets-cache") = true) ∧
    (CacheOpt.falsy option = false → CacheOpt.isInst option = false →
      CacheOpt.isCls option = false → option ≠ .pybool true →
      get_cache option envDirectory fs = (.fsRooted option, fs)) := by
  refine ⟨?_, ?_, ?_, ?_, ?_⟩
  · intro h
    cases option <;>
      simp_all [get_cache, CacheOpt.falsy, CacheOpt.truthy]
  · intro h
    cases option <;>
      simp_all [get_cache, CacheOpt.falsy, CacheOpt.truthy, CacheOpt.isInst]
  · intro h
    cases option <;>
      simp_all [get_cache, CacheOpt.falsy, CacheOpt.truthy, CacheOpt.isInst,
        CacheOpt.isCls]
  · rintro rfl
    constructor
    · rfl
    · show FS.dirExists
        (if fs.dirExists (pathJoin envDirectory ".webassets-cache") then fs
         else fs.makedirs (pathJoin envDirectory ".webassets-cache"))
        (pathJoin envDirectory ".webassets-cache") = true
      by_cases hex : fs.dirExists (pathJoin envDirectory ".webassets-cache") = true
      · rw [if_pos hex]
        exact hex
      · rw [if_neg hex]
        simp [FS.dirExists, FS.makedirs]
  · intro hf hi hc hb
    cases option <;>
      simp_all [get_cache, CacheOpt.falsy, CacheOpt.truthy, CacheOpt.isInst,
        CacheOpt.isCls]

/-- Witness for C7, exercising one option of each kind. -/
theorem get_cache_spec_witness :
    get_cache .pynone "/e" (FS.mk [] []) = (.noCache, FS.mk [] []) ∧
    get_cache (.instMem 3 9) "/e" (FS.mk [] [])
      = (.asIs (.instMem 3 9), FS.mk [] []) ∧
    get_cache (.cacheCls 7) "/e" (FS.mk [] [])
      = (.newFromCls (CacheOpt.clsDefault (.cacheCls 7)), FS.mk [] []) ∧
    ((get_cache (.pybool true) "/e" (FS.mk [] [])).1
        = .fsRooted (.pystr (pathJoin "/e" ".webassets-cache")) ∧
      FS.dirExists (get_cache (.pybool true) "/e" (FS.mk [] [])).2
        (pathJoin "/e" ".webassets-cache") = true) ∧
    get_cache (.pystr "/tmp/x") "/e" (FS.mk [] [])
      = (.fsRooted (.pystr "/tmp/x"), FS.mk [] []) :=
  ⟨(get_cache_spec .pynone "/e" (FS.mk [] [])).1 (by decide),
   (get_cache_spec (.instMem 3 9) "/e" (FS.mk [] [])).2.1 (by decide),
   (get_cache_spec (.cacheCls 7) "/e" (FS.mk [] [])).2.2.1 (by decide),
   (get_cache_spec (.pybool true) "/e" (FS.mk [] [])).2.2.2.1 (by decide),
   (get_cache_spec (.pystr "/tmp/x") "/e" (FS.mk [] [])).2.2.2.2 (by decide)
     (by decide) (by decide) (by decide)⟩
